import Mathlib

/-!
Verification of the strategic hangman solver
(src/hangman-client/src/solver/strategic.rs).

Modelling conventions:

* Strings are modelled as lists of byte values: `Word := List Nat`
  (every byte in play is < 256, and dictionary entries are ASCII).
* `HashSet<u8>` is modelled as `Finset Nat`.
* The pseudo-random source (`SquirrelRng`, consumed through `choose`)
  is abstracted as an index oracle: each call to `next` receives one
  natural number `k`, and a uniform draw from a nonempty collection of
  `n` elements is modelled as taking the element at index `k % n`.
* The iteration order of the `HashMap` and the permutation applied by
  the unstable sort are unspecified by the source; the model fixes a
  canonical order (keys in ascending byte order fed to a stable
  insertion sort).  Which element of a tie set a given draw `k`
  denotes is therefore canonical here, but every theorem below
  depends only on membership of the selected element in the tie set,
  never on that canonical order.
* The regex engine is modelled on the fragment `build_expr` emits for
  masked words: sequences of literal bytes and the `.` wildcard,
  matched unanchored (`is_match` succeeds if the pattern matches at
  any offset).  Patterns containing other regex metacharacters are
  outside the model (`regexNew` returns `none` for them); no theorem
  below exercises such patterns.
* Fallible paths return `Option`: `next` returns `none` exactly where
  the source would panic (the `unwrap` on the result of `build_expr`).
-/

namespace Hangman

/-- A string, as the sequence of its bytes. -/
abbrev Word := List Nat

/-- Byte-level `u8::to_ascii_uppercase`. -/
def toAsciiUppercaseByte (u : Nat) : Nat :=
  if 97 ≤ u ∧ u ≤ 122 then u - 32 else u

/-- `str::to_ascii_uppercase`. -/
def toAsciiUppercase (w : Word) : Word :=
  w.map toAsciiUppercaseByte

/-- `str::is_ascii`. -/
def isAscii (w : Word) : Bool :=
  w.all (fun u => decide (u < 128))

/-- Byte-lexicographic order on words, the order `sort_unstable` uses on a
vector of strings. -/
def lexLe : Word → Word → Bool
  | [], _ => true
  | _ :: _, [] => false
  | u :: a, v :: b => if u < v then true else if u = v then lexLe a b else false

/-- `StrategicSolverFactory::from_words`: keep the ASCII entries of byte length
at least 5, uppercase them, and sort the result. -/
def from_words (words : List Word) : List Word :=
  List.insertionSort (fun a b => lexLe a b = true)
    (words.filterMap (fun word =>
      if 5 ≤ word.length ∧ isAscii word = true then some (toAsciiUppercase word) else none))

/-- One atom of a compiled pattern: the `.` wildcard or a literal byte. -/
inductive Atom where
  | wild : Atom
  | lit : Nat → Atom
deriving DecidableEq

/-- Bytes treated as regex metacharacters by the model:
`( ) [ ] { } * + ? | ^ $ \`.  See the module comment. -/
def isMeta (u : Nat) : Bool :=
  u == 40 || u == 41 || u == 91 || u == 93 || u == 123 || u == 125 ||
  u == 42 || u == 43 || u == 63 || u == 124 || u == 94 || u == 36 || u == 92

/-- `Regex::new`, on the literal-and-dot fragment: `.` compiles to the
wildcard atom, any other non-metacharacter byte to a literal atom. -/
def regexNew (pattern : Word) : Option (List Atom) :=
  if pattern.all (fun u => !isMeta u) then
    some (pattern.map (fun u => if u = 46 then Atom.wild else Atom.lit u))
  else none

/-- `build_expr`: `*` becomes `.`, every other byte is uppercased, and the
resulting pattern is compiled. -/
def build_expr (word : Word) : Option (List Atom) :=
  regexNew (word.map (fun u => if u = 42 then 46 else toAsciiUppercaseByte u))

/-- Whether one atom matches one byte. -/
def atomMatch : Atom → Nat → Bool
  | Atom.wild, _ => true
  | Atom.lit u, v => u == v

/-- Whether the pattern matches a leading segment of the text. -/
def matchFrom : List Atom → Word → Bool
  | [], _ => true
  | _ :: _, [] => false
  | a :: p, u :: t => atomMatch a u && matchFrom p t

/-- `Regex::is_match`: the search is unanchored, so the pattern may match at
any offset of the text. -/
def is_match (p : List Atom) (t : Word) : Bool :=
  (List.range (t.length + 1)).any (fun i => matchFrom p (t.drop i))

/-- The `Shape` struct: a compiled pattern plus the set of known-absent
letters. -/
structure Shape where
  expr : List Atom
  disallow : Finset Nat

/-- `Shape::filter`: the text matches the pattern and contains no disallowed
byte. -/
def Shape.filter (s : Shape) (text : Word) : Bool :=
  is_match s.expr text && text.all (fun u => decide (u ∉ s.disallow))

/-- The solver's mutable history (`SolverState`); the seeded rng is abstracted
away, see the module comment. -/
structure SolverState where
  submitted : Finset Nat
  uncharacterized : Option Nat
  disallow : Finset Nat
deriving DecidableEq

/-- `SolverState::default`: empty history. -/
def initState : SolverState :=
  { submitted := ∅, uncharacterized := none, disallow := ∅ }

/-- `SolverState::characterize`: fold the pending letter, if any, into
`submitted`, and into `disallow` when it occurs nowhere in the word. -/
def characterize (word : Word) (s : SolverState) : SolverState :=
  match s.uncharacterized with
  | none => s
  | some u =>
    { submitted := insert u s.submitted
      uncharacterized := none
      disallow := if word.any (fun uword => u == uword) then s.disallow
                  else insert u s.disallow }

/-- The frequency map: how many times byte `c` occurs across all the words
(the source folds `flat_map(bytes)` into a counter per byte). -/
def tally (ws : List Word) (c : Nat) : Nat :=
  (ws.map (fun w => w.count c)).sum

/-- The descending-count order used to sort the frequency vector
(`sort_unstable_by_key` with `Reverse(frequency.1)`). -/
def freqGe (a b : Nat × Nat) : Prop :=
  b.2 ≤ a.2

instance : DecidableRel freqGe :=
  fun a b => Nat.decLe b.2 a.2

instance : IsTotal (Nat × Nat) freqGe :=
  ⟨fun a b => Or.symm (Nat.le_total a.2 b.2)⟩

instance : IsTrans (Nat × Nat) freqGe :=
  ⟨fun _ _ _ h1 h2 => Nat.le_trans h2 h1⟩

/-- The sorted frequency vector: the entries of the frequency map whose key is
not in `submitted`, sorted by descending count.  See the module comment for
the canonical tie order. -/
def byFrequency (t : Nat → Nat) (submitted : Finset Nat) : List (Nat × Nat) :=
  List.insertionSort freqGe
    (((List.range 256).filter (fun c => decide (0 < t c) && decide (c ∉ submitted))).map
      (fun c => (c, t c)))

/-- `first_rank_by_key`: keep every item whose key equals the first item's
key (the source's stateful filter latches the first key and keeps matches). -/
def first_rank_by_key {α β : Type} [DecidableEq β] (l : List α) (f : α → β) : List α :=
  match l with
  | [] => []
  | x :: _ => l.filter (fun y => decide (f y = f x))

/-- The tie-break set computed inside `SolverState::next`, as a list: filter
the dictionary through the shape, tally byte frequencies, drop submitted
letters, and keep the top rank.  `s` is the state after `characterize`. -/
def firstRankOf (e : List Atom) (dict : List Word) (s : SolverState) : List Nat :=
  let shape : Shape := { expr := e, disallow := s.disallow }
  let filtered := dict.filter (fun text => Shape.filter shape text)
  (first_rank_by_key (byFrequency (tally filtered) s.submitted) (fun x => x.2)).map
    (fun x => x.1)

/-- `SolverState::next`.  `k` is this call's draw from the random source; the
guesses-remaining argument is accepted and unused, as in the source.  Returns
`none` exactly where the source panics (`build_expr(word).unwrap()`). -/
def next (k : Nat) (word : Word) (_guessesRemaining : Nat) (dict : List Word)
    (s : SolverState) : Option (Nat × SolverState) :=
  match build_expr word with
  | none => none
  | some e =>
    let s1 := characterize word s
    let fr := firstRankOf e dict s1
    let selected :=
      match fr with
      | [] => 65 + k % 26
      | _ :: _ => fr.getD (k % fr.length) 0
    some (selected, { s1 with uncharacterized := some selected })

/-- Run a sequence of turns on one solver instance: each turn supplies one
random draw and the masked word observed for that turn.  Returns the letters
produced, in order, together with the final state. -/
def run (dict : List Word) : List (Nat × Word) → SolverState → Option (List Nat × SolverState)
  | [], s => some ([], s)
  | (k, w) :: turns, s =>
    match next k w 0 dict s with
    | none => none
    | some (c, s') =>
      match run dict turns s' with
      | none => none
      | some (cs, s'') => some (c :: cs, s'')

/-- A turn sequence in which the alphabet fallback never fires: at every turn
the tie-break set is nonempty. -/
def noFallback (dict : List Word) : List (Nat × Word) → SolverState → Bool
  | [], _ => true
  | (k, w) :: turns, s =>
    match build_expr w with
    | none => false
    | some e =>
      !(firstRankOf e dict (characterize w s)).isEmpty &&
      (match next k w 0 dict s with
       | none => false
       | some (_, s') => noFallback dict turns s')

/-- An uppercase ASCII letter. -/
def isUpperLetter (u : Nat) : Bool :=
  decide (65 ≤ u) && decide (u ≤ 90)

/-- A well-formed masked word: uppercase letters at revealed positions and the
byte 42 (the character *) at hidden positions. -/
def wellFormedMask (w : Word) : Bool :=
  w.all (fun u => isUpperLetter u || u == 42)

/-- The pattern `build_expr` produces for a well-formed masked word: a wildcard
atom for each masked position, a literal atom for each revealed letter. -/
def maskPattern (m : Word) : List Atom :=
  m.map (fun u => if u = 42 then Atom.wild else Atom.lit u)

theorem matchFrom_iff (p : List Atom) (t : Word) :
    matchFrom p t = true ↔
      p.length ≤ t.length ∧
        ∀ j, j < p.length → atomMatch (p.getD j Atom.wild) (t.getD j 0) = true := by
  induction p generalizing t with
  | nil => simp [matchFrom]
  | cons a p ih =>
    cases t with
    | nil => simp [matchFrom]
    | cons u t =>
      simp only [matchFrom, Bool.and_eq_true, ih, List.length_cons]
      constructor
      · rintro ⟨ha, hlen, hrest⟩
        refine ⟨by omega, ?_⟩
        intro j hj
        cases j with
        | zero => simpa using ha
        | succ j => simpa using hrest j (by omega)
      · rintro ⟨hlen, hall⟩
        refine ⟨by simpa using hall 0 (by omega), by omega, ?_⟩
        intro j hj
        simpa using hall (j + 1) (by omega)

theorem getD_drop (t : Word) (i j : Nat) :
    (t.drop i).getD j 0 = t.getD (i + j) 0 := by
  simp [List.getD_eq_getElem?_getD, List.getElem?_drop]

theorem is_match_iff (p : List Atom) (t : Word) :
    is_match p t = true ↔
      ∃ i, i + p.length ≤ t.length ∧
        ∀ j, j < p.length → atomMatch (p.getD j Atom.wild) (t.getD (i + j) 0) = true := by
  unfold is_match
  rw [List.any_eq_true]
  constructor
  · rintro ⟨i, hi, hm⟩
    rw [List.mem_range] at hi
    rw [matchFrom_iff] at hm
    obtain ⟨hlen, hall⟩ := hm
    rw [List.length_drop] at hlen
    refine ⟨i, by omega, ?_⟩
    intro j hj
    have := hall j hj
    rwa [getD_drop] at this
  · rintro ⟨i, hi, hall⟩
    refine ⟨i, List.mem_range.mpr (by omega), ?_⟩
    rw [matchFrom_iff]
    refine ⟨by rw [List.length_drop]; omega, ?_⟩
    intro j hj
    rw [getD_drop]
    exact hall j hj

theorem isUpperLetter_iff (u : Nat) : isUpperLetter u = true ↔ 65 ≤ u ∧ u ≤ 90 := by
  simp [isUpperLetter]

theorem isMeta_iff (u : Nat) :
    isMeta u = true ↔
      u = 40 ∨ u = 41 ∨ u = 91 ∨ u = 93 ∨ u = 123 ∨ u = 125 ∨ u = 42 ∨ u = 43 ∨
        u = 63 ∨ u = 124 ∨ u = 94 ∨ u = 36 ∨ u = 92 := by
  simp only [isMeta, Bool.or_eq_true, beq_iff_eq]
  tauto

theorem wellFormedMask_bytes {m : Word} (hm : wellFormedMask m = true) :
    ∀ u ∈ m, (65 ≤ u ∧ u ≤ 90) ∨ u = 42 := by
  rw [wellFormedMask, List.all_eq_true] at hm
  intro u hu
  have h := hm u hu
  simp only [Bool.or_eq_true, beq_iff_eq, isUpperLetter_iff] at h
  exact h

theorem build_expr_wellFormed (m : Word) (hm : wellFormedMask m = true) :
    build_expr m = some (maskPattern m) := by
  have hbytes := wellFormedMask_bytes hm
  have hall : (m.map (fun u => if u = 42 then 46 else toAsciiUppercaseByte u)).all
      (fun u => !isMeta u) = true := by
    rw [List.all_eq_true]
    intro v hv
    rw [List.mem_map] at hv
    obtain ⟨u, hu, rfl⟩ := hv
    rcases hbytes u hu with h | rfl
    · have hupper : toAsciiUppercaseByte u = u := by
        unfold toAsciiUppercaseByte
        rw [if_neg (by omega)]
      rw [if_neg (by omega), hupper, Bool.not_eq_true']
      rw [← Bool.not_eq_true, isMeta_iff]
      omega
    · simp [isMeta]
  rw [build_expr, regexNew, if_pos hall]
  congr 1
  rw [maskPattern, List.map_map]
  apply List.map_congr_left
  intro u hu
  rcases hbytes u hu with h | rfl
  · have hupper : toAsciiUppercaseByte u = u := by
      unfold toAsciiUppercaseByte
      rw [if_neg (by omega)]
    simp only [Function.comp_apply, if_neg (by omega : ¬ u = 42), hupper]
    rw [if_neg (by omega)]
  · simp

theorem maskPattern_getD (m : Word) (j : Nat) (hj : j < m.length) :
    (maskPattern m).getD j Atom.wild =
      if m.getD j 0 = 42 then Atom.wild else Atom.lit (m.getD j 0) := by
  have hj' : j < (maskPattern m).length := by simpa [maskPattern] using hj
  rw [List.getD_eq_getElem _ _ hj', List.getD_eq_getElem _ _ hj]
  simp [maskPattern]

theorem shape_filter_iff (m : Word) (d : Finset Nat) (t : Word) :
    Shape.filter { expr := maskPattern m, disallow := d } t = true ↔
      ((∃ i, i + m.length ≤ t.length ∧
          ∀ j, j < m.length → m.getD j 0 ≠ 42 → t.getD (i + j) 0 = m.getD j 0) ∧
        ∀ u ∈ t, u ∉ d) := by
  have hsf : Shape.filter { expr := maskPattern m, disallow := d } t =
      (is_match (maskPattern m) t && t.all (fun u => decide (u ∉ d))) := rfl
  rw [hsf, Bool.and_eq_true, is_match_iff]
  have hlen : (maskPattern m).length = m.length := by simp [maskPattern]
  rw [hlen]
  apply and_congr
  · apply exists_congr
    intro i
    apply and_congr Iff.rfl
    · apply forall_congr'
      intro j
      constructor
      · intro h hj hne
        have h' := h hj
        rw [maskPattern_getD m j hj, if_neg hne] at h'
        have := (beq_iff_eq).mp h'
        omega
      · intro h hj
        rw [maskPattern_getD m j hj]
        by_cases h42 : m.getD j 0 = 42
        · rw [if_pos h42]
          rfl
        · rw [if_neg h42]
          exact beq_iff_eq.mpr (h hj h42).symm
  · rw [List.all_eq_true]
    simp

/-- C1.  Shape filtering correctness: for a well-formed masked word and a
candidate of the same length, the candidate survives `Shape::filter` iff it
agrees with the mask at every revealed (non-wildcard) position and contains no
disallowed byte. -/
theorem shapeFilter_equal_length (m t : Word) (d : Finset Nat) (e : List Atom)
    (hm : wellFormedMask m = true) (he : build_expr m = some e)
    (hlen : t.length = m.length) :
    Shape.filter { expr := e, disallow := d } t = true ↔
      ((∀ j, j < m.length → m.getD j 0 ≠ 42 → t.getD j 0 = m.getD j 0) ∧
        ∀ u ∈ t, u ∉ d) := by
  obtain rfl : maskPattern m = e :=
    Option.some.inj ((build_expr_wellFormed m hm).symm.trans he)
  rw [shape_filter_iff]
  apply and_congr _ Iff.rfl
  constructor
  · rintro ⟨i, hi, h⟩
    obtain rfl : i = 0 := by omega
    simpa using h
  · intro h
    exact ⟨0, by omega, by simpa using h⟩

/-- Witness for C1: mask A*, candidate AB, empty disallowed set. -/
theorem shapeFilter_equal_length_witness :
    Shape.filter { expr := [Atom.lit 65, Atom.wild], disallow := (∅ : Finset Nat) }
        [65, 66] = true ↔
      ((∀ j, j < ([65, 42] : Word).length → ([65, 42] : Word).getD j 0 ≠ 42 →
          ([65, 66] : Word).getD j 0 = ([65, 42] : Word).getD j 0) ∧
        ∀ u ∈ ([65, 66] : Word), u ∉ (∅ : Finset Nat)) :=
  shapeFilter_equal_length [65, 42] [65, 66] ∅ [Atom.lit 65, Atom.wild]
    (by decide) (by decide) rfl

/-- C10.  Unanchored shape matching: the filter does not restrict candidates
to the mask's length; a strictly longer candidate survives exactly when some
contiguous substring of it matches the mask position-for-position and the
candidate contains no disallowed byte. -/
theorem shapeFilter_unanchored (m t : Word) (d : Finset Nat) (e : List Atom)
    (hm : wellFormedMask m = true) (he : build_expr m = some e)
    (_hlonger : m.length < t.length) :
    Shape.filter { expr := e, disallow := d } t = true ↔
      ((∃ i, i + m.length ≤ t.length ∧
          ∀ j, j < m.length → m.getD j 0 ≠ 42 → t.getD (i + j) 0 = m.getD j 0) ∧
        ∀ u ∈ t, u ∉ d) := by
  obtain rfl : maskPattern m = e :=
    Option.some.inj ((build_expr_wellFormed m hm).symm.trans he)
  exact shape_filter_iff m d t

/-- Witness for C10: mask AB, candidate XABY of length 4 survives (the match
sits at offset 1). -/
theorem shapeFilter_unanchored_witness :
    (Shape.filter { expr := [Atom.lit 65, Atom.lit 66], disallow := (∅ : Finset Nat) }
        [88, 65, 66, 89] = true ↔
      ((∃ i, i + ([65, 66] : Word).length ≤ ([88, 65, 66, 89] : Word).length ∧
          ∀ j, j < ([65, 66] : Word).length → ([65, 66] : Word).getD j 0 ≠ 42 →
            ([88, 65, 66, 89] : Word).getD (i + j) 0 = ([65, 66] : Word).getD j 0) ∧
        ∀ u ∈ ([88, 65, 66, 89] : Word), u ∉ (∅ : Finset Nat))) ∧
    Shape.filter { expr := [Atom.lit 65, Atom.lit 66], disallow := (∅ : Finset Nat) }
        [88, 65, 66, 89] = true :=
  ⟨shapeFilter_unanchored [65, 66] [88, 65, 66, 89] ∅ [Atom.lit 65, Atom.lit 66]
      (by decide) (by decide) (by decide),
    by decide⟩

theorem getD_mod_mem {α : Type} (l : List α) (k : Nat) (d : α) (h : l ≠ []) :
    l.getD (k % l.length) d ∈ l := by
  have hlen : 0 < l.length := List.length_pos.mpr h
  have hk : k % l.length < l.length := Nat.mod_lt _ hlen
  rw [List.getD_eq_getElem _ _ hk]
  exact List.getElem_mem hk

theorem next_none (k : Nat) (word : Word) (g : Nat) (dict : List Word) (s : SolverState)
    (h : build_expr word = none) : next k word g dict s = none := by
  unfold next
  rw [h]

theorem next_characterization (k : Nat) (word : Word) (g : Nat) (dict : List Word)
    (s : SolverState) (c : Nat) (s' : SolverState)
    (h : next k word g dict s = some (c, s')) :
    ∃ e, build_expr word = some e ∧
      s' = { characterize word s with uncharacterized := some c } ∧
      ((firstRankOf e dict (characterize word s) ≠ [] ∧
          c ∈ firstRankOf e dict (characterize word s)) ∨
        (firstRankOf e dict (characterize word s) = [] ∧ c = 65 + k % 26)) := by
  unfold next at h
  cases hb : build_expr word with
  | none =>
    rw [hb] at h
    exact absurd h (by simp)
  | some e =>
    rw [hb] at h
    simp only at h
    refine ⟨e, rfl, ?_⟩
    cases hfr : firstRankOf e dict (characterize word s) with
    | nil =>
      rw [hfr] at h
      simp only [Option.some.injEq, Prod.mk.injEq] at h
      obtain ⟨rfl, rfl⟩ := h
      exact ⟨rfl, Or.inr ⟨rfl, rfl⟩⟩
    | cons x xs =>
      rw [hfr] at h
      simp only [Option.some.injEq, Prod.mk.injEq] at h
      obtain ⟨rfl, rfl⟩ := h
      refine ⟨rfl, Or.inl ⟨by simp, ?_⟩⟩
      exact getD_mod_mem _ k 0 (by simp)

theorem mem_byFrequency (t : Nat → Nat) (sub : Finset Nat) (p : Nat × Nat) :
    p ∈ byFrequency t sub ↔ p.1 < 256 ∧ p.2 = t p.1 ∧ 0 < t p.1 ∧ p.1 ∉ sub := by
  obtain ⟨a, b⟩ := p
  unfold byFrequency
  rw [(List.perm_insertionSort _ _).mem_iff, List.mem_map]
  simp only [List.mem_filter, List.mem_range, Bool.and_eq_true, decide_eq_true_eq,
    Prod.mk.injEq]
  constructor
  · rintro ⟨c, ⟨hc1, hc2, hc3⟩, rfl, rfl⟩
    exact ⟨hc1, rfl, hc2, hc3⟩
  · rintro ⟨h1, rfl, h3, h4⟩
    exact ⟨a, ⟨h1, h3, h4⟩, rfl, rfl⟩

theorem byFrequency_sorted (t : Nat → Nat) (sub : Finset Nat) :
    (byFrequency t sub).Sorted freqGe := by
  unfold byFrequency
  exact List.sorted_insertionSort freqGe _

theorem mem_first_rank_sorted (l : List (Nat × Nat)) (hs : l.Sorted freqGe) (y : Nat × Nat) :
    y ∈ first_rank_by_key l (fun x => x.2) ↔ y ∈ l ∧ ∀ z ∈ l, z.2 ≤ y.2 := by
  cases l with
  | nil => simp [first_rank_by_key]
  | cons x rest =>
    rw [first_rank_by_key, List.mem_filter]
    rw [List.sorted_cons] at hs
    obtain ⟨hx, _⟩ := hs
    simp only [decide_eq_true_eq]
    constructor
    · rintro ⟨hy, he⟩
      refine ⟨hy, ?_⟩
      intro z hz
      rcases List.mem_cons.mp hz with rfl | hz
      · omega
      · have := hx z hz
        unfold freqGe at this
        omega
    · rintro ⟨hy, hall⟩
      refine ⟨hy, ?_⟩
      have h1 : x.2 ≤ y.2 := hall x (List.mem_cons_self x rest)
      have h2 : y.2 ≤ x.2 := by
        rcases List.mem_cons.mp hy with rfl | hy
        · exact Nat.le_refl _
        · exact hx y hy
      omega

theorem mem_topRank (t : Nat → Nat) (sub : Finset Nat) (c : Nat) :
    c ∈ (first_rank_by_key (byFrequency t sub) (fun x => x.2)).map (fun x => x.1) ↔
      c < 256 ∧ 0 < t c ∧ c ∉ sub ∧
        ∀ d, d < 256 → 0 < t d → d ∉ sub → t d ≤ t c := by
  rw [List.mem_map]
  constructor
  · rintro ⟨y, hy, rfl⟩
    rw [mem_first_rank_sorted _ (byFrequency_sorted t sub)] at hy
    obtain ⟨hy, hmax⟩ := hy
    rw [mem_byFrequency] at hy
    obtain ⟨h1, h2, h3, h4⟩ := hy
    refine ⟨h1, h3, h4, ?_⟩
    intro d hd htd hdsub
    have hmem : ((d, t d) : Nat × Nat) ∈ byFrequency t sub :=
      (mem_byFrequency t sub (d, t d)).mpr ⟨hd, rfl, htd, hdsub⟩
    have := hmax (d, t d) hmem
    simp only at this
    omega
  · rintro ⟨h1, h2, h3, h4⟩
    refine ⟨(c, t c), ?_, rfl⟩
    rw [mem_first_rank_sorted _ (byFrequency_sorted t sub)]
    refine ⟨(mem_byFrequency t sub (c, t c)).mpr ⟨h1, rfl, h2, h3⟩, ?_⟩
    intro z hz
    rw [mem_byFrequency] at hz
    obtain ⟨hz1, hz2, hz3, hz4⟩ := hz
    have := h4 z.1 hz1 hz3 hz4
    omega

theorem mem_firstRankOf (e : List Atom) (dict : List Word) (s : SolverState) (c : Nat)
    (F : List Word)
    (hF : F = dict.filter (fun text =>
      Shape.filter { expr := e, disallow := s.disallow } text)) :
    c ∈ firstRankOf e dict s ↔
      c < 256 ∧ 0 < tally F c ∧ c ∉ s.submitted ∧
        ∀ d, d < 256 → 0 < tally F d → d ∉ s.submitted → tally F d ≤ tally F c := by
  subst hF
  unfold firstRankOf
  exact mem_topRank _ _ _

theorem first_rank_by_key_eq_nil {α β : Type} [DecidableEq β] (l : List α) (f : α → β) :
    first_rank_by_key l f = [] ↔ l = [] := by
  cases l with
  | nil => simp [first_rank_by_key]
  | cons x rest =>
    rw [first_rank_by_key]
    constructor
    · intro h
      have hx : x ∈ (x :: rest).filter (fun y => decide (f y = f x)) := by
        rw [List.mem_filter]
        exact ⟨List.mem_cons_self x rest, by simp⟩
      rw [h] at hx
      exact absurd hx (List.not_mem_nil x)
    · intro h
      exact absurd h (by simp)

theorem byFrequency_eq_nil (t : Nat → Nat) (sub : Finset Nat) :
    byFrequency t sub = [] ↔ ¬ ∃ d, d < 256 ∧ 0 < t d ∧ d ∉ sub := by
  constructor
  · intro h hd
    obtain ⟨d, hd1, hd2, hd3⟩ := hd
    have hmem : ((d, t d) : Nat × Nat) ∈ byFrequency t sub :=
      (mem_byFrequency t sub (d, t d)).mpr ⟨hd1, rfl, hd2, hd3⟩
    rw [h] at hmem
    exact absurd hmem (List.not_mem_nil _)
  · intro h
    rw [List.eq_nil_iff_forall_not_mem]
    intro p hp
    rw [mem_byFrequency] at hp
    exact h ⟨p.1, hp.1, hp.2.2.1, hp.2.2.2⟩

theorem firstRankOf_eq_nil (e : List Atom) (dict : List Word) (s : SolverState)
    (F : List Word)
    (hF : F = dict.filter (fun text =>
      Shape.filter { expr := e, disallow := s.disallow } text)) :
    firstRankOf e dict s = [] ↔
      ¬ ∃ d, d < 256 ∧ 0 < tally F d ∧ d ∉ s.submitted := by
  subst hF
  unfold firstRankOf
  rw [List.map_eq_nil_iff, first_rank_by_key_eq_nil, byFrequency_eq_nil]

/-- C2.  The frequency tally counts every byte occurrence across the filtered
candidates (no per-word deduplication), and whenever some tallied byte remains
outside `submitted`, the selected byte is a remaining one of maximum tally
(it belongs to the tie-break set). -/
theorem tally_and_tiebreak (k : Nat) (word : Word) (g : Nat) (dict : List Word)
    (s : SolverState) (c : Nat) (s' : SolverState) (e : List Atom) (F : List Word)
    (he : build_expr word = some e)
    (hF : F = dict.filter (fun text =>
      Shape.filter { expr := e, disallow := (characterize word s).disallow } text))
    (h : next k word g dict s = some (c, s')) :
    (∀ b, tally F b = F.flatten.count b) ∧
    ((∃ d, d < 256 ∧ 0 < tally F d ∧ d ∉ (characterize word s).submitted) →
      (0 < tally F c ∧ c ∉ (characterize word s).submitted ∧
        ∀ d, d < 256 → d ∉ (characterize word s).submitted → tally F d ≤ tally F c)) := by
  constructor
  · intro b
    rw [tally, List.count_flatten]
  · intro hne
    obtain ⟨e', he', _, hsel⟩ := next_characterization k word g dict s c s' h
    obtain rfl : e = e' := Option.some.inj (he.symm.trans he')
    rcases hsel with ⟨_, hc⟩ | ⟨hfr, _⟩
    · rw [mem_firstRankOf e dict _ c F hF] at hc
      obtain ⟨_, h2, h3, h4⟩ := hc
      refine ⟨h2, h3, ?_⟩
      intro d hd hdsub
      by_cases htd : 0 < tally F d
      · exact h4 d hd htd hdsub
      · omega
    · rw [firstRankOf_eq_nil e dict _ F hF] at hfr
      exact absurd hne hfr

/-- Witness for C2: dictionary APPLE, GRAPE, BERRY against the all-masked
five-letter word; the selection is E (byte 69), of maximal tally 3. -/
theorem tally_and_tiebreak_witness :
    (∀ b, tally [[65, 80, 80, 76, 69], [71, 82, 65, 80, 69], [66, 69, 82, 82, 89]] b =
        ([[65, 80, 80, 76, 69], [71, 82, 65, 80, 69], [66, 69, 82, 82, 89]] :
          List Word).flatten.count b) ∧
    ((∃ d, d < 256 ∧
        0 < tally [[65, 80, 80, 76, 69], [71, 82, 65, 80, 69], [66, 69, 82, 82, 89]] d ∧
        d ∉ (characterize (List.replicate 5 42) initState).submitted) →
      (0 < tally [[65, 80, 80, 76, 69], [71, 82, 65, 80, 69], [66, 69, 82, 82, 89]] 69 ∧
        69 ∉ (characterize (List.replicate 5 42) initState).submitted ∧
        ∀ d, d < 256 → d ∉ (characterize (List.replicate 5 42) initState).submitted →
          tally [[65, 80, 80, 76, 69], [71, 82, 65, 80, 69], [66, 69, 82, 82, 89]] d ≤
            tally [[65, 80, 80, 76, 69], [71, 82, 65, 80, 69], [66, 69, 82, 82, 89]] 69)) :=
  tally_and_tiebreak 0 (List.replicate 5 42) 0
    [[65, 80, 80, 76, 69], [71, 82, 65, 80, 69], [66, 69, 82, 82, 89]]
    initState 69 { submitted := ∅, uncharacterized := some 69, disallow := ∅ }
    (List.replicate 5 Atom.wild)
    [[65, 80, 80, 76, 69], [71, 82, 65, 80, 69], [66, 69, 82, 82, 89]]
    (by decide) (by decide) (by decide)

theorem any_beq_iff (u : Nat) (w : Word) :
    (w.any fun x => u == x) = true ↔ u ∈ w := by
  rw [List.any_eq_true]
  constructor
  · rintro ⟨x, hx, he⟩
    exact (beq_iff_eq.mp he) ▸ hx
  · intro h
    exact ⟨u, h, beq_iff_eq.mpr rfl⟩

theorem characterize_some (word : Word) (s : SolverState) (u : Nat)
    (h : s.uncharacterized = some u) :
    characterize word s =
      { submitted := insert u s.submitted
        uncharacterized := none
        disallow := if u ∈ word then s.disallow else insert u s.disallow } := by
  simp only [characterize, h]
  by_cases hc : u ∈ word
  · rw [if_pos ((any_beq_iff u word).mpr hc), if_pos hc]
  · rw [if_neg (fun hh => hc ((any_beq_iff u word).mp hh)), if_neg hc]

/-- C3.  Reconciliation: when a pending letter exists, the next selection first
moves it into submitted, clears the pending slot, and adds it to disallowed
exactly when it occurs nowhere in the supplied masked word. -/
theorem reconciliation (word : Word) (s : SolverState) (u : Nat)
    (h : s.uncharacterized = some u) :
    (characterize word s).submitted = insert u s.submitted ∧
    (characterize word s).uncharacterized = none ∧
    ((characterize word s).disallow =
      if u ∈ word then s.disallow else insert u s.disallow) ∧
    (u ∉ s.disallow → ((u ∈ (characterize word s).disallow) ↔ u ∉ word)) ∧
    (∀ k g dict c s', next k word g dict s = some (c, s') →
      u ∈ s'.submitted ∧ (u ∉ word → u ∈ s'.disallow)) := by
  rw [characterize_some word s u h]
  refine ⟨rfl, rfl, rfl, ?_, ?_⟩
  · intro hnd
    by_cases hc : u ∈ word
    · rw [if_pos hc]
      exact ⟨fun hh => absurd hh hnd, fun hh => absurd hc hh⟩
    · rw [if_neg hc]
      exact ⟨fun _ => hc, fun _ => Finset.mem_insert_self u s.disallow⟩
  · intro k g dict c s' hnext
    obtain ⟨e, _, hs', _⟩ := next_characterization k word g dict s c s' hnext
    subst hs'
    constructor
    · show u ∈ (characterize word s).submitted
      rw [characterize_some word s u h]
      exact Finset.mem_insert_self u s.submitted
    · intro hnw
      show u ∈ (characterize word s).disallow
      rw [characterize_some word s u h]
      show u ∈ (if u ∈ word then s.disallow else insert u s.disallow)
      rw [if_neg hnw]
      exact Finset.mem_insert_self u s.disallow

/-- Witness for C3: pending letter Z (90) reconciled against the masked word
APPLE (which contains no Z) lands in both submitted and disallowed. -/
theorem reconciliation_witness :
    90 ∈ (characterize [65, 80, 80, 76, 69]
        { submitted := ∅, uncharacterized := some 90, disallow := ∅ }).submitted ∧
    90 ∈ (characterize [65, 80, 80, 76, 69]
        { submitted := ∅, uncharacterized := some 90, disallow := ∅ }).disallow := by
  obtain ⟨h1, _, h3, _, _⟩ := reconciliation [65, 80, 80, 76, 69]
    { submitted := ∅, uncharacterized := some 90, disallow := ∅ } 90 rfl
  constructor
  · rw [h1]
    exact Finset.mem_insert_self 90 ∅
  · rw [h3, if_neg (by decide)]
    exact Finset.mem_insert_self 90 ∅

theorem next_eq_none_iff (k : Nat) (word : Word) (g : Nat) (dict : List Word)
    (s : SolverState) :
    next k word g dict s = none ↔ build_expr word = none := by
  unfold next
  cases hb : build_expr word with
  | none => simp
  | some e => simp

/-- Counterexample to C5 as stated: the dictionary built from the single word
A-B-C-D-E (ASCII, length 9, so it survives loading) makes the solver return
the hyphen (byte 45), which is not an uppercase letter. -/
theorem next_nonletter_counterexample :
    (next 0 (List.replicate 9 42) 0 (from_words [[65, 45, 66, 45, 67, 45, 68, 45, 69]])
        initState).map (fun r => r.1) = some 45 ∧
    isUpperLetter 45 = false :=
  ⟨by decide, by decide⟩

theorem tally_pos (ws : List Word) (c : Nat) (h : 0 < tally ws c) :
    ∃ w ∈ ws, c ∈ w := by
  induction ws with
  | nil => simp [tally] at h
  | cons w ws ih =>
    rw [tally, List.map_cons, List.sum_cons] at h
    by_cases hw : 0 < w.count c
    · exact ⟨w, List.mem_cons_self w ws, List.count_pos_iff.mp hw⟩
    · have hws : 0 < tally ws c := by rw [tally]; omega
      obtain ⟨w', hw', hc⟩ := ih hws
      exact ⟨w', List.mem_cons_of_mem _ hw', hc⟩

/-- C5 amended: when every dictionary entry consists solely of uppercase ASCII
letters, every selection is an uppercase ASCII letter. -/
theorem next_letter_of_letter_dict (k : Nat) (word : Word) (g : Nat) (dict : List Word)
    (s : SolverState) (c : Nat) (s' : SolverState)
    (hdict : ∀ w ∈ dict, ∀ u ∈ w, isUpperLetter u = true)
    (h : next k word g dict s = some (c, s')) :
    isUpperLetter c = true := by
  obtain ⟨e, _, _, hsel⟩ := next_characterization k word g dict s c s' h
  rcases hsel with ⟨_, hc⟩ | ⟨_, rfl⟩
  · rw [mem_firstRankOf e dict _ c _ rfl] at hc
    obtain ⟨_, h2, _, _⟩ := hc
    obtain ⟨w, hw, hcw⟩ := tally_pos _ c h2
    rw [List.mem_filter] at hw
    exact hdict w hw.1 c hcw
  · rw [isUpperLetter_iff]
    have : k % 26 < 26 := Nat.mod_lt _ (by omega)
    omega

/-- Witness for the amended C5: the letter-only APPLE, GRAPE, BERRY dictionary
yields the uppercase letter E (69). -/
theorem next_letter_of_letter_dict_witness :
    next 0 (List.replicate 5 42) 0
        [[65, 80, 80, 76, 69], [71, 82, 65, 80, 69], [66, 69, 82, 82, 89]] initState =
      some (69, { submitted := ∅, uncharacterized := some 69, disallow := ∅ }) ∧
    isUpperLetter 69 = true :=
  ⟨by decide,
    next_letter_of_letter_dict 0 (List.replicate 5 42) 0
      [[65, 80, 80, 76, 69], [71, 82, 65, 80, 69], [66, 69, 82, 82, 89]] initState 69
      { submitted := ∅, uncharacterized := some 69, disallow := ∅ }
      (by decide) (by decide)⟩

/-- C7.  Degenerate fallback: when the tie-break set is empty the selection
still succeeds, returning the alphabet element indexed by the uniform draw,
which is always an uppercase letter, and every letter of the full 26-letter
alphabet is reachable by some draw. -/
theorem fallback_full_alphabet (k : Nat) (word : Word) (g : Nat) (dict : List Word)
    (s : SolverState) (e : List Atom)
    (he : build_expr word = some e)
    (hfr : firstRankOf e dict (characterize word s) = []) :
    (∃ s', next k word g dict s = some (65 + k % 26, s')) ∧
    isUpperLetter (65 + k % 26) = true ∧
    (∀ c, isUpperLetter c = true → ∃ j, 65 + j % 26 = c) := by
  refine ⟨?_, ?_, ?_⟩
  · cases hn : next k word g dict s with
    | none =>
      rw [next_eq_none_iff] at hn
      rw [he] at hn
      exact absurd hn (by simp)
    | some p =>
      obtain ⟨c', s'⟩ := p
      obtain ⟨e', he', _, hsel⟩ := next_characterization k word g dict s c' s' hn
      obtain rfl : e = e' := Option.some.inj (he.symm.trans he')
      rcases hsel with ⟨hne, _⟩ | ⟨_, rfl⟩
      · exact absurd hfr hne
      · exact ⟨s', rfl⟩
  · rw [isUpperLetter_iff]
    have : k % 26 < 26 := Nat.mod_lt _ (by omega)
    omega
  · intro c hc
    rw [isUpperLetter_iff] at hc
    refine ⟨c - 65, ?_⟩
    have : (c - 65) % 26 = c - 65 := Nat.mod_eq_of_lt (by omega)
    omega

/-- Witness for C7: the empty dictionary gives an empty tie-break set, and the
draw 0 produces the letter A (65). -/
theorem fallback_full_alphabet_witness :
    (∃ s', next 0 (List.replicate 5 42) 0 [] initState = some (65 + 0 % 26, s')) ∧
    isUpperLetter (65 + 0 % 26) = true ∧
    (∀ c, isUpperLetter c = true → ∃ j, 65 + j % 26 = c) :=
  fallback_full_alphabet 0 (List.replicate 5 42) 0 [] initState
    (List.replicate 5 Atom.wild) (by decide) (by decide)

/-- C8.  No fatal failure on well-formed input: for a masked word of uppercase
letters and wildcards, `next` always returns a selection, whatever the history
state and dictionary (the regex always compiles and the fallback always yields
a value). -/
theorem next_total (k : Nat) (word : Word) (g : Nat) (dict : List Word) (s : SolverState)
    (hw : wellFormedMask word = true) :
    ∃ c s', next k word g dict s = some (c, s') := by
  cases hn : next k word g dict s with
  | none =>
    rw [next_eq_none_iff] at hn
    rw [build_expr_wellFormed word hw] at hn
    exact absurd hn (by simp)
  | some p => exact ⟨p.1, p.2, rfl⟩

/-- Witness for C8: the masked word R*D is well-formed, so selection succeeds
even with an empty dictionary and fresh state. -/
theorem next_total_witness :
    wellFormedMask [82, 42, 68] = true ∧
    ∃ c s', next 7 [82, 42, 68] 0 [] initState = some (c, s') :=
  ⟨by decide, next_total 7 [82, 42, 68] 0 [] initState (by decide)⟩

theorem characterize_none (w : Word) (s : SolverState) (h : s.uncharacterized = none) :
    characterize w s = s := by
  simp [characterize, h]

theorem characterize_submitted_subset (w : Word) (s : SolverState) :
    s.submitted ⊆ (characterize w s).submitted := by
  cases hu : s.uncharacterized with
  | none => rw [characterize_none w s hu]
  | some u =>
    rw [characterize_some w s u hu]
    exact Finset.subset_insert u s.submitted

theorem characterize_disallow_subset (w : Word) (s : SolverState) :
    s.disallow ⊆ (characterize w s).disallow := by
  cases hu : s.uncharacterized with
  | none => rw [characterize_none w s hu]
  | some u =>
    rw [characterize_some w s u hu]
    show s.disallow ⊆ (if u ∈ w then s.disallow else insert u s.disallow)
    by_cases hc : u ∈ w
    · rw [if_pos hc]
    · rw [if_neg hc]
      exact Finset.subset_insert u s.disallow

theorem characterize_inv (w : Word) (s : SolverState) (h : s.disallow ⊆ s.submitted) :
    (characterize w s).disallow ⊆ (characterize w s).submitted := by
  cases hu : s.uncharacterized with
  | none => rw [characterize_none w s hu]; exact h
  | some u =>
    rw [characterize_some w s u hu]
    show (if u ∈ w then s.disallow else insert u s.disallow) ⊆ insert u s.submitted
    by_cases hc : u ∈ w
    · rw [if_pos hc]
      exact h.trans (Finset.subset_insert u s.submitted)
    · rw [if_neg hc]
      exact Finset.insert_subset_insert u h

theorem next_state_fields (k : Nat) (word : Word) (g : Nat) (dict : List Word)
    (s : SolverState) (c : Nat) (s' : SolverState)
    (h : next k word g dict s = some (c, s')) :
    s'.submitted = (characterize word s).submitted ∧
    s'.disallow = (characterize word s).disallow ∧
    s'.uncharacterized = some c := by
  obtain ⟨e, _, hs', _⟩ := next_characterization k word g dict s c s' h
  subst hs'
  exact ⟨rfl, rfl, rfl⟩

theorem run_monotone (dict : List Word) (turns : List (Nat × Word)) :
    ∀ s outs s', run dict turns s = some (outs, s') →
      s.submitted ⊆ s'.submitted ∧ s.disallow ⊆ s'.disallow ∧
        (s.disallow ⊆ s.submitted → s'.disallow ⊆ s'.submitted) := by
  induction turns with
  | nil =>
    intro s outs s' h
    simp only [run, Option.some.injEq, Prod.mk.injEq] at h
    obtain ⟨_, rfl⟩ := h
    exact ⟨Finset.Subset.refl _, Finset.Subset.refl _, fun hh => hh⟩
  | cons turn turns ih =>
    obtain ⟨k, w⟩ := turn
    intro s outs s' h
    rw [run] at h
    cases hn : next k w 0 dict s with
    | none =>
      rw [hn] at h
      exact absurd h (by simp)
    | some p =>
      obtain ⟨c, s1⟩ := p
      rw [hn] at h
      have h1 : (match run dict turns s1 with
          | none => none
          | some (cs, s'') => some (c :: cs, s'')) = some (outs, s') := h
      cases hr : run dict turns s1 with
      | none =>
        rw [hr] at h1
        exact absurd h1 (by simp)
      | some q =>
        obtain ⟨cs, s2⟩ := q
        rw [hr] at h1
        simp only [Option.some.injEq, Prod.mk.injEq] at h1
        obtain ⟨_, rfl⟩ := h1
        obtain ⟨hf1, hf2, _⟩ := next_state_fields k w 0 dict s c s1 hn
        have hsub : s.submitted ⊆ s1.submitted := by
          rw [hf1]
          exact characterize_submitted_subset w s
        have hdis : s.disallow ⊆ s1.disallow := by
          rw [hf2]
          exact characterize_disallow_subset w s
        have hinv : s.disallow ⊆ s.submitted → s1.disallow ⊆ s1.submitted := by
          intro hh
          rw [hf1, hf2]
          exact characterize_inv w s hh
        obtain ⟨ih1, ih2, ih3⟩ := ih s1 cs s2 hr
        exact ⟨hsub.trans ih1, hdis.trans ih2, fun hh => ih3 (hinv hh)⟩

/-- C6.  History invariant: across any sequence of turns the submitted and
disallowed sets only grow, the subset relation disallowed ⊆ submitted is
preserved (and holds in the initial state, whose sets are empty), and the
pending slot is cleared by every reconciliation. -/
theorem history_invariant (dict : List Word) (turns : List (Nat × Word))
    (s : SolverState) (outs : List Nat) (s' : SolverState)
    (hrun : run dict turns s = some (outs, s')) :
    (s.submitted ⊆ s'.submitted ∧ s.disallow ⊆ s'.disallow ∧
      (s.disallow ⊆ s.submitted → s'.disallow ⊆ s'.submitted)) ∧
    initState.disallow ⊆ initState.submitted ∧
    ∀ w t, (characterize w t).uncharacterized = none := by
  refine ⟨run_monotone dict turns s outs s' hrun, Finset.Subset.refl _, ?_⟩
  intro w t
  cases hu : t.uncharacterized with
  | none => rw [characterize_none w t hu, hu]
  | some u => rw [characterize_some w t u hu]

/-- Witness for C6: a two-turn game on the APPLE, GRAPE, BERRY dictionary. -/
theorem history_invariant_witness :
    ((initState.submitted ⊆ ({69} : Finset Nat) ∧ initState.disallow ⊆ (∅ : Finset Nat) ∧
      (initState.disallow ⊆ initState.submitted → (∅ : Finset Nat) ⊆ ({69} : Finset Nat))) ∧
    initState.disallow ⊆ initState.submitted ∧
    ∀ w t, (characterize w t).uncharacterized = none) :=
  history_invariant [[65, 80, 80, 76, 69], [71, 82, 65, 80, 69], [66, 69, 82, 82, 89]]
    [(0, List.replicate 5 42), (0, [42, 42, 42, 42, 69])] initState [69, 80]
    { submitted := {69}, uncharacterized := some 80, disallow := ∅ } (by decide)

theorem run_nodup_aux (dict : List Word) (turns : List (Nat × Word)) :
    ∀ s outs s', run dict turns s = some (outs, s') → noFallback dict turns s = true →
      outs.Nodup ∧
        ∀ c ∈ outs, c ∉ s.submitted ∧ ∀ u, s.uncharacterized = some u → c ≠ u := by
  induction turns with
  | nil =>
    intro s outs s' h _
    simp only [run, Option.some.injEq, Prod.mk.injEq] at h
    obtain ⟨rfl, _⟩ := h
    exact ⟨List.nodup_nil, by simp⟩
  | cons turn turns ih =>
    obtain ⟨k, w⟩ := turn
    intro s outs s' h hnf
    rw [run] at h
    cases hn : next k w 0 dict s with
    | none =>
      rw [hn] at h
      exact absurd h (by simp)
    | some p =>
      obtain ⟨c0, s1⟩ := p
      rw [hn] at h
      have h1 : (match run dict turns s1 with
          | none => none
          | some (cs, s'') => some (c0 :: cs, s'')) = some (outs, s') := h
      cases hr : run dict turns s1 with
      | none =>
        rw [hr] at h1
        exact absurd h1 (by simp)
      | some q =>
        obtain ⟨cs, s2⟩ := q
        rw [hr] at h1
        simp only [Option.some.injEq, Prod.mk.injEq] at h1
        obtain ⟨rfl, rfl⟩ := h1
        rw [noFallback] at hnf
        cases hb : build_expr w with
        | none =>
          rw [hb] at hnf
          exact absurd hnf (by simp)
        | some e =>
          rw [hb, hn] at hnf
          rw [Bool.and_eq_true] at hnf
          obtain ⟨hfrne, hnf'⟩ := hnf
          have hfr : firstRankOf e dict (characterize w s) ≠ [] := by
            intro hh
            rw [hh] at hfrne
            exact absurd hfrne (by simp)
          obtain ⟨e', he', hs1, hsel⟩ := next_characterization k w 0 dict s c0 s1 hn
          obtain rfl : e = e' := Option.some.inj (hb.symm.trans he')
          rcases hsel with ⟨_, hc0⟩ | ⟨hemp, _⟩
          · have hc0sub : c0 ∉ (characterize w s).submitted := by
              rw [mem_firstRankOf e dict _ c0 _ rfl] at hc0
              exact hc0.2.2.1
            obtain ⟨ihn, ihall⟩ := ih s1 cs s2 hr hnf'
            subst hs1
            refine ⟨?_, ?_⟩
            · rw [List.nodup_cons]
              refine ⟨?_, ihn⟩
              intro hc0cs
              exact (ihall c0 hc0cs).2 c0 rfl rfl
            · intro c hcmem
              rcases List.mem_cons.mp hcmem with rfl | hcs
              · refine ⟨?_, ?_⟩
                · intro hcsub
                  exact hc0sub (characterize_submitted_subset w s hcsub)
                · intro u hu hcu
                  subst hcu
                  refine hc0sub ?_
                  rw [characterize_some w s c hu]
                  exact Finset.mem_insert_self c s.submitted
              · have hc' := ihall c hcs
                refine ⟨?_, ?_⟩
                · intro hcsub
                  exact hc'.1 (characterize_submitted_subset w s hcsub)
                · intro u hu hcu
                  subst hcu
                  refine hc'.1 ?_
                  show c ∈ (characterize w s).submitted
                  rw [characterize_some w s c hu]
                  exact Finset.mem_insert_self c s.submitted
          · exact absurd hemp hfr

/-- C4 amended: across any sequence of reconciled turns in which every
selection came from the tie-break set (the alphabet fallback never fired), the
returned letters are pairwise distinct; the fallback path may repeat letters. -/
theorem no_repeat_guesses (dict : List Word) (turns : List (Nat × Word))
    (outs : List Nat) (s' : SolverState)
    (hrun : run dict turns initState = some (outs, s'))
    (hnf : noFallback dict turns initState = true) :
    outs.Nodup :=
  (run_nodup_aux dict turns initState outs s' hrun hnf).1

/-- Counterexample to C4 as stated: on the empty dictionary, two reconciled
turns on the all-masked word both return A (the fallback fires each time), so
the letters returned across turns are not pairwise distinct. -/
theorem no_repeat_guesses_counterexample :
    (run [] [(0, List.replicate 5 42), (0, List.replicate 5 42)] initState).map
        (fun r => r.1) = some [65, 65] ∧
    ¬ ([65, 65] : List Nat).Nodup :=
  ⟨by decide, by decide⟩

/-- Witness for the amended C4: two fallback-free turns on the APPLE, GRAPE,
BERRY dictionary return the distinct letters E and P. -/
theorem no_repeat_guesses_witness :
    run [[65, 80, 80, 76, 69], [71, 82, 65, 80, 69], [66, 69, 82, 82, 89]]
        [(0, List.replicate 5 42), (0, [42, 42, 42, 42, 69])] initState =
      some ([69, 80], { submitted := {69}, uncharacterized := some 80, disallow := ∅ }) ∧
    ([69, 80] : List Nat).Nodup :=
  ⟨by decide,
    no_repeat_guesses [[65, 80, 80, 76, 69], [71, 82, 65, 80, 69], [66, 69, 82, 82, 89]]
      [(0, List.replicate 5 42), (0, [42, 42, 42, 42, 69])] [69, 80]
      { submitted := {69}, uncharacterized := some 80, disallow := ∅ }
      (by decide) (by decide)⟩

/-- C9.  Dictionary load normalization: the loaded dictionary holds exactly the
uppercased forms of the ASCII input entries of byte length at least 5; shorter
or non-ASCII entries are dropped. -/
theorem from_words_normalizes (words : List Word) (w : Word) :
    (w ∈ from_words words ↔
      ∃ v ∈ words, 5 ≤ v.length ∧ isAscii v = true ∧ toAsciiUppercase v = w) ∧
    (from_words words).Perm (words.filterMap (fun v =>
      if 5 ≤ v.length ∧ isAscii v = true then some (toAsciiUppercase v) else none)) := by
  have hperm : (from_words words).Perm (words.filterMap (fun v =>
      if 5 ≤ v.length ∧ isAscii v = true then some (toAsciiUppercase v) else none)) := by
    unfold from_words
    exact List.perm_insertionSort _ _
  refine ⟨?_, hperm⟩
  rw [hperm.mem_iff, List.mem_filterMap]
  constructor
  · rintro ⟨v, hv, he⟩
    by_cases hc : 5 ≤ v.length ∧ isAscii v = true
    · rw [if_pos hc] at he
      exact ⟨v, hv, hc.1, hc.2, Option.some.inj he⟩
    · rw [if_neg hc] at he
      exact absurd he (by simp)
  · rintro ⟨v, hv, h1, h2, h3⟩
    exact ⟨v, hv, by rw [if_pos ⟨h1, h2⟩, h3]⟩

end Hangman
